import Mathlib

/-!
Verification development for the storefront-factory MCP server
(`frontends-template-mcp`).  The definitions below are a shallow embedding
of the server's TypeScript source: the request gatekeeper
(`assertAuthorized`, `assertRateLimited`, `assertOwnerAllowed`), the tool
handlers' guard structure, the template merge (`mergeFiles`), the recursive
template fetch (`fetchDirectoryRecursive` / `fetchTemplate`), the branding
transformer (`applyBranding` / `updateUnoColors`) and the git publisher
(`pushFiles`).  Remote HTTP effects are modelled by explicit environments;
JavaScript strings are modelled by Lean `String` / `List Char`, JS numbers
by `Nat` / `Int` at the points where the source only ever handles
non-negative integers respectively possibly-negative differences.
-/

/-- Error object thrown by the gatekeeper helpers: an `Error` with a
`statusCode` field, as built throughout the handler in the source. -/
structure HttpError where
  statusCode : Nat
  message : String
deriving DecidableEq

/-- File encoding, from `TemplateFile` in `src/lib/template.ts`
(`"utf-8" | "base64"`). -/
inductive Encoding where
  | utf8
  | base64
deriving DecidableEq

/-- `TemplateFile` from `src/lib/template.ts`: one file of a file set. -/
structure TemplateFile where
  path : String
  content : String
  encoding : Encoding
deriving DecidableEq

/-- The JS regex class `\s` and the whitespace set of
`String.prototype.trim`, restricted to the ASCII whitespace characters
(the only whitespace the manipulated sources contain). -/
def jsIsSpace (c : Char) : Bool :=
  c == ' ' || c == '\t' || c == '\n' || c == '\r' || c == '\x0b' || c == '\x0c'

/-- `s.startsWith(p)` computed on the character lists (JS compares code
units; all strings involved are plain text). -/
def jsStartsWith (s p : String) : Bool :=
  p.data.isPrefixOf s.data

/-- `s.endsWith(p)` computed on the character lists. -/
def jsEndsWith (s p : String) : Bool :=
  p.data.reverse.isPrefixOf s.data.reverse

/-- `s.slice(n)` / `s.slice(n)`-style character drop. -/
def jsDropChars (s : String) (n : Nat) : String :=
  String.mk (s.data.drop n)

/-- `s.trim()`: strip leading and trailing whitespace. -/
def jsTrim (s : String) : String :=
  String.mk
    (((s.data.dropWhile jsIsSpace).reverse.dropWhile jsIsSpace).reverse)

/-- `s.toLowerCase()` for the ASCII file names involved. -/
def jsToLower (s : String) : String :=
  String.mk (s.data.map Char.toLower)

/-- `s.split(",")` on character lists: the comma-separated fields, empty
fields preserved (`"".split(",")` is `[""]`). -/
def splitCommaChars : List Char → List (List Char)
  | [] => [[]]
  | c :: rest =>
    let r := splitCommaChars rest
    if c == ',' then [] :: r
    else
      match r with
      | h :: t => (c :: h) :: t
      | [] => [[c]]

/-- `s.split(",")`. -/
def jsSplitComma (s : String) : List String :=
  (splitCommaChars s.data).map String.mk

/-- Truthiness of `process.env.X` as tested by `if (!expected)` in the
source: `undefined` (here `none`) and the empty string are falsy. -/
def envFalsy : Option String → Bool
  | none => true
  | some s => s.isEmpty

/-- Shallow embedding of `assertAuthorized` (server handler, lines 34-55).
`mcpAuthToken` is `process.env.MCP_AUTH_TOKEN`; `authHeader` and `xMcpKey`
are the `authorization` and `x-mcp-key` request headers (`none` = absent).
Mirrors: the fail-closed 500 on a falsy secret, the `Bearer ` prefix
extraction with `.trim()`, the JS `bearer || xKey?.trim()` fallback (an
empty bearer string is falsy, so the fallback is consulted), and the final
`!provided || provided !== expected` check. -/
def assertAuthorized (mcpAuthToken : Option String)
    (authHeader : Option String) (xMcpKey : Option String) :
    Except HttpError String :=
  if envFalsy mcpAuthToken then
    .error ⟨500, "MCP_AUTH_TOKEN is not set on the server"⟩
  else
    let expected := mcpAuthToken.getD ""
    let bearer : Option String :=
      match authHeader with
      | some h =>
        if jsStartsWith h "Bearer " then some (jsTrim (jsDropChars h 7))
        else none
      | none => none
    let provided : Option String :=
      match bearer with
      | some b => if b.isEmpty then xMcpKey.map jsTrim else some b
      | none => xMcpKey.map jsTrim
    match provided with
    | none => .error ⟨401, "Unauthorized"⟩
    | some p =>
      if p.isEmpty = true ∨ p ≠ expected then .error ⟨401, "Unauthorized"⟩
      else .ok p

/-- `RateState` from the server handler: `{ windowStartMs, count }`. -/
structure RateState where
  windowStartMs : Nat
  count : Nat
deriving DecidableEq

/-- The value returned by a successful `assertRateLimited` call (the `ip`
field is omitted: it is part of the key, not of the quota logic). -/
structure RateSuccess where
  remaining : Int
  resetInSec : Nat
deriving DecidableEq

/-- The `429` error thrown by `assertRateLimited`, with its `meta` fields. -/
structure RateError where
  statusCode : Nat
  limit : Nat
  windowSec : Nat
  retryAfterSec : Nat
deriving DecidableEq

/-- `Math.max(1, windowSec) * 1000` from `assertRateLimited`. -/
def rateWindowMs (windowSec : Nat) : Nat := Nat.max 1 windowSec * 1000

/-- Shallow embedding of `assertRateLimited` (server handler, lines 62-95)
for one fixed `(authToken, ip)` key; distinct keys never share state, so a
single cell of the `RATE` map is modelled.  `now` is `Date.now()`; `state`
is `RATE.get(key)`.  Returns the updated stored state together with the
`{remaining, resetInSec}` result, or the thrown `429` error.  `Math.ceil`
of a positive rational `x/1000` is `(x + 999) / 1000` in `Nat`.  The JS
comparison `now - state.windowStartMs >= windowMs` agrees with the `Nat`
one in every case: a negative JS difference and a truncated-to-zero `Nat`
difference both fall below `windowMs ≥ 1000`. -/
def assertRateLimited (max windowSec : Nat) (now : Nat)
    (state : Option RateState) : Except RateError (RateState × RateSuccess) :=
  let windowMs := rateWindowMs windowSec
  match state with
  | none => .ok (⟨now, 1⟩, ⟨Max.max 0 ((max : Int) - 1), windowSec⟩)
  | some s =>
    if windowMs ≤ now - s.windowStartMs then
      .ok (⟨now, 1⟩, ⟨Max.max 0 ((max : Int) - 1), windowSec⟩)
    else if max ≤ s.count then
      .error ⟨429, max, windowSec,
        Nat.max 1 ((s.windowStartMs + windowMs - now + 999) / 1000)⟩
    else
      .ok (⟨s.windowStartMs, s.count + 1⟩,
        ⟨Max.max 0 ((max : Int) - ((s.count : Int) + 1)),
         Nat.max 1 ((s.windowStartMs + windowMs - now + 999) / 1000)⟩)

/-- The invariant claimed for the stored rate state: a present entry has
`1 ≤ count ≤ max`. -/
def rateInv (max : Nat) : Option RateState → Prop
  | none => True
  | some s => 1 ≤ s.count ∧ s.count ≤ max

/-- Run a sequence of `assertRateLimited` calls (call times in order)
against one key's stored state: a successful call stores the new state, a
thrown `429` leaves the stored state untouched (the source throws before
`state.count += 1`). -/
def rateRun (max windowSec : Nat) (calls : List Nat)
    (st : Option RateState) : Option RateState :=
  calls.foldl (fun st now =>
    match assertRateLimited max windowSec now st with
    | .ok (s', _) => some s'
    | .error _ => st) st

/-- Shallow embedding of `assertOwnerAllowed` (server handler, lines
97-112): `mcpAllowedOwners` is `process.env.MCP_ALLOWED_OWNERS`; a falsy
value is a 500, otherwise the raw value is split on commas, trimmed,
empties dropped, and the owner must be a member. -/
def assertOwnerAllowed (mcpAllowedOwners : Option String) (owner : String) :
    Except HttpError Unit :=
  match mcpAllowedOwners with
  | none => .error ⟨500, "MCP_ALLOWED_OWNERS is not set on the server"⟩
  | some raw =>
    if raw.isEmpty then
      .error ⟨500, "MCP_ALLOWED_OWNERS is not set on the server"⟩
    else
      let allowed := ((jsSplitComma raw).map jsTrim).filter
        (fun s => !s.isEmpty)
      if owner ∈ allowed then .ok ()
      else .error ⟨403, "Owner not allowed: " ++ owner⟩

/-- The external (remote-host) calls a tool handler can issue, in the
order the handler issues them. -/
inductive ExternalCall where
  | describeBaseTemplate
  | describePackages
  | fetchUnoConfig
  | createStoreAndDeploy
deriving DecidableEq

/-- Guard structure of the `plan_storefront` tool handler (server handler,
lines 305-400): it calls `assertOwnerAllowed(input.git.owner)` first and
only then issues its three read-only remote fetches.  The handler's output
payload is abstracted to `Unit`; what is modelled is the error/effect
behaviour. -/
def planStorefrontRun (mcpAllowedOwners : Option String) (owner : String) :
    Except HttpError Unit × List ExternalCall :=
  match assertOwnerAllowed mcpAllowedOwners owner with
  | .error e => (.error e, [])
  | .ok _ =>
    (.ok (), [.describeBaseTemplate, .describePackages, .fetchUnoConfig])

/-- Guard structure of the `create_store_and_deploy` tool handler (server
handler, lines 404-446): `assertOwnerAllowed(input.git.owner)` first, the
repository-mutating pipeline (`createStoreAndDeploy`) only afterwards. -/
def createStoreAndDeployRun (mcpAllowedOwners : Option String)
    (owner : String) : Except HttpError Unit × List ExternalCall :=
  match assertOwnerAllowed mcpAllowedOwners owner with
  | .error e => (.error e, [])
  | .ok _ => (.ok (), [.createStoreAndDeploy])

/-- One step of a JavaScript `Map<string, TemplateFile>` modelled as an
insertion-ordered association list: `Map.set` replaces the value at an
existing key in place (position kept) and otherwise appends the new entry
at the end, exactly the behaviour `mergeFiles` relies on. -/
def fileMapSet (m : List (String × TemplateFile)) (k : String)
    (v : TemplateFile) : List (String × TemplateFile) :=
  if k ∈ m.map Prod.fst then
    m.map (fun kv => if kv.1 = k then (k, v) else kv)
  else m ++ [(k, v)]

/-- `for (const file of files) fileMap.set(file.path, file)` from
`mergeFiles`. -/
def fileMapInsertAll (m : List (String × TemplateFile))
    (files : List TemplateFile) : List (String × TemplateFile) :=
  files.foldl (fun m f => fileMapSet m f.path f) m

/-- Shallow embedding of `mergeFiles` (`src/lib/template.ts`, lines
152-166): base files are inserted first, then the override files, and the
map's values are returned in insertion order. -/
def mergeFiles (base override : List TemplateFile) : List TemplateFile :=
  (fileMapInsertAll (fileMapInsertAll [] base) override).map Prod.snd

/-- First entry of a file list at a given path (`Array.prototype.find` by
path), used to state path-lookup properties of `mergeFiles`. -/
def filesLookup (files : List TemplateFile) (p : String) :
    Option TemplateFile :=
  files.find? (fun f => decide (f.path = p))

/-- Association-list lookup mirroring `Map.get`. -/
def fileMapGet (m : List (String × TemplateFile)) (k : String) :
    Option TemplateFile :=
  (m.find? (fun kv => decide (kv.1 = k))).map Prod.snd

/-- One entry of the `tree` array posted to `POST /git/trees` by
`pushFiles` (mode and type are the constants from the source). -/
structure TreeItem where
  path : String
  mode : String
  type : String
  sha : String
deriving DecidableEq

/-- `PushFilesResult` from the GitHub module. -/
structure PushFilesResult where
  commitSha : String
  commitUrl : String
  filesCommitted : Nat
deriving DecidableEq

/-- The branch-reference request issued by step 5 of `pushFiles`: a
`PATCH /git/refs/heads/{branch}` with `{sha, force}` when a base tip was
captured, otherwise a `POST /git/refs` with `{ref, sha}`. -/
inductive RefRequest where
  | patchRef (branch : String) (sha : String) (force : Bool)
  | postRef (branch : String) (sha : String)
deriving DecidableEq

/-- Environment of remote GitHub responses seen by one `pushFiles` run.
`refLookup` is the outcome of the `GET /git/ref/heads/{branch}` read:
`some sha` when the response was ok, `none` when it was not ok or threw
(both leave `baseSha = null` in the source).  `commitLookup` is the
outcome of the `GET /git/commits/{baseSha}` read, consulted only when
`refLookup` succeeded: `some treeSha` when ok, `none` when not ok or
thrown (both leave `baseTreeSha = null`; a throw there is swallowed by the
surrounding `try` after `baseSha` was already assigned).  The three
creation endpoints return either the created sha(s) or the error text of a
non-ok response; `updateRef` tells whether the ref write succeeds. -/
structure PushEnv where
  refLookup : Option String
  commitLookup : Option String
  createBlob : TemplateFile → Except String String
  createTree : List TreeItem → Option String → Except String String
  createCommit : String → String → List String → Except String (String × String)
  updateRef : RefRequest → Bool

/-- The `base_tree` value `pushFiles` ends up with: the base commit's tree
sha only when the branch ref read succeeded and the base commit read
succeeded. -/
def baseTreeOf (env : PushEnv) : Option String :=
  match env.refLookup with
  | some _ => env.commitLookup
  | none => none

/-- Step 2 of `pushFiles`: create one blob per file, sequentially, in file
order; the first non-ok response throws
`Failed to create blob for {path}: ...`. -/
def mkBlobs (env : PushEnv) : List TemplateFile → Except String (List TreeItem)
  | [] => .ok []
  | f :: rest =>
    match env.createBlob f with
    | .error e => .error ("Failed to create blob for " ++ f.path ++ ": " ++ e)
    | .ok sha =>
      match mkBlobs env rest with
      | .error e => .error e
      | .ok items => .ok (⟨f.path, "100644", "blob", sha⟩ :: items)

/-- Everything observable about one `pushFiles` run: its return value or
thrown error, the tree / commit / ref requests it issued (if it reached
them), and the final value of the branch ref.  `finalRef` starts at the
branch's prior tip and is changed only by a successful ref write — a
failed or never-issued ref write leaves it untouched, since every other
request only creates unreachable content-addressed objects. -/
structure PushOutcome where
  result : Except String PushFilesResult
  treeReq : Option (List TreeItem × Option String)
  commitReq : Option (String × String × List String)
  refReq : Option RefRequest
  finalRef : Option String

/-- Shallow embedding of `pushFiles` (GitHub module, lines 254-399) over a
response environment.  `initialRef` is the branch's actual prior tip (the
state the ref write mutates); `env.refLookup` is what the ref read
returned.  The stage order, the error wrapping, the request payloads
(`base_tree` only when captured, `parents` only when a base tip was
captured, `force: false` on the PATCH) and the single commit point (the
ref write) mirror the source. -/
def pushFilesRun (env : PushEnv) (initialRef : Option String)
    (files : List TemplateFile) (commitMessage : String) (branch : String) :
    PushOutcome :=
  let baseSha := env.refLookup
  let baseTreeSha := baseTreeOf env
  match mkBlobs env files with
  | .error e => ⟨.error e, none, none, none, initialRef⟩
  | .ok treeItems =>
    match env.createTree treeItems baseTreeSha with
    | .error e =>
      ⟨.error ("Failed to create tree: " ++ e),
       some (treeItems, baseTreeSha), none, none, initialRef⟩
    | .ok treeSha =>
      let parents : List String := match baseSha with
        | some s => [s]
        | none => []
      match env.createCommit commitMessage treeSha parents with
      | .error e =>
        ⟨.error ("Failed to create commit: " ++ e),
         some (treeItems, baseTreeSha), some (commitMessage, treeSha, parents),
         none, initialRef⟩
      | .ok (commitSha, commitUrl) =>
        let req : RefRequest := match baseSha with
          | some _ => .patchRef branch commitSha false
          | none => .postRef branch commitSha
        if env.updateRef req then
          ⟨.ok ⟨commitSha, commitUrl, files.length⟩,
           some (treeItems, baseTreeSha), some (commitMessage, treeSha, parents),
           some req, some commitSha⟩
        else
          ⟨.error "Failed to update ref",
           some (treeItems, baseTreeSha), some (commitMessage, treeSha, parents),
           some req, initialRef⟩

/-- Whether an `Except` value is an error (a thrown JS exception). -/
def exceptIsError : Except String α → Bool
  | .error _ => true
  | .ok _ => false

/-- One entry of the remote template directory tree as
`fetchDirectoryRecursive` sees it.  For a file, `downloadOk` says whether
its content download succeeds (`false` covers a non-ok response, a thrown
fetch and a missing `download_url` — all of which make the source skip the
file via its `catch` / `res.ok` guards) and `content` is the text (or
base64 text, for a binary name) obtained when it does succeed. -/
inductive FsEntry where
  | file (name : String) (downloadOk : Bool) (content : String)
  | dir (name : String) (entries : List FsEntry)

/-- The binary-extension list from `fetchDirectoryRecursive`. -/
def binaryExtensions : List String :=
  [".png", ".jpg", ".jpeg", ".gif", ".ico", ".woff", ".woff2", ".ttf", ".eot"]

/-- `binaryExtensions.some((ext) => item.name.toLowerCase().endsWith(ext))`. -/
def isBinaryName (name : String) : Bool :=
  binaryExtensions.any (fun ext => jsEndsWith (jsToLower name) ext)

/-- `relativePath ? relativePath + "/" + item.name : item.name`. -/
def joinRel (relativePath name : String) : String :=
  if relativePath.isEmpty then name else relativePath ++ "/" ++ name

/-- Shallow embedding of `fetchDirectoryRecursive` (`src/lib/template.ts`,
lines 95-147) over an explicit directory tree: files whose download
succeeds are pushed with their relative path and an encoding chosen by the
binary-extension test; files whose download fails are skipped with no
other effect; directories are recursed into in order. -/
def fetchDirectoryRecursive : String → List FsEntry → List TemplateFile
  | _, [] => []
  | relativePath, FsEntry.file name ok content :: rest =>
    (if ok then
      [⟨joinRel relativePath name, content,
        if isBinaryName name then Encoding.base64 else Encoding.utf8⟩]
     else [])
      ++ fetchDirectoryRecursive relativePath rest
  | relativePath, FsEntry.dir name entries :: rest =>
    fetchDirectoryRecursive (joinRel relativePath name) entries
      ++ fetchDirectoryRecursive relativePath rest

/-- The same directory tree with every failing file removed. -/
def pruneFailing : List FsEntry → List FsEntry
  | [] => []
  | FsEntry.file name ok content :: rest =>
    (if ok then [FsEntry.file name ok content] else []) ++ pruneFailing rest
  | FsEntry.dir name entries :: rest =>
    FsEntry.dir name (pruneFailing entries) :: pruneFailing rest

/-- `FetchTemplateResult` from `src/lib/template.ts` (lines 21-25): the
complete shape of the value `fetchTemplate` returns — a file list, the
template name and the ref, nothing else. -/
structure FetchTemplateResult where
  files : List TemplateFile
  template : String
  ref : String
deriving DecidableEq

/-- The non-extended branch of `fetchTemplate` (`src/lib/template.ts`,
lines 185-220) over an explicit remote tree `dir` standing for
`templates/{template}` at `ref`: the result is exactly the recursive fetch
plus the echoed template name and ref. -/
def fetchTemplateBase (dir : List FsEntry) (template ref : String) :
    FetchTemplateResult :=
  ⟨fetchDirectoryRecursive "" dir, template, ref⟩

/-- The apostrophe character (ASCII 39), one of the two quote characters
accepted by the token-value patterns in `updateUnoColors`. -/
def quoteApos : Char := Char.ofNat 39

/-- Membership in the regex class of quotes accepted by the patterns. -/
def isQuoteChar (c : Char) : Bool := c == quoteApos || c == '"'

/-- The JS regex class `\w` = `[A-Za-z0-9_]`. -/
def jsIsWordChar (c : Char) : Bool := c.isAlpha || c.isDigit || c == '_'

/-- The lookahead `(?=\w+\s*:|$|\x7d)` of the colors-block regex in
`updateUnoColors`, at a given position (`$` is multiline: end of input or
before a line terminator).  The `\w+\s*:` branch needs no backtracking —
word characters and whitespace are disjoint from `:`. -/
def lookaheadOk (l : List Char) : Bool :=
  match l with
  | [] => true
  | c :: rest =>
    if c == '\x7d' || c == '\n' || c == '\r' then true
    else if jsIsWordChar c then
      match (rest.dropWhile jsIsWordChar).dropWhile jsIsSpace with
      | ':' :: _ => true
      | _ => false
    else false

/-- Greedy `\s*` followed by the lookahead, with backtracking: the longest
whitespace prefix whose endpoint satisfies the lookahead is preferred,
falling back one character at a time.  Returns the number of characters
consumed, or `none`. -/
def tryWsThenLookahead : List Char → Option Nat
  | [] => if lookaheadOk [] then some 0 else none
  | c :: rest =>
    if jsIsSpace c then
      match tryWsThenLookahead rest with
      | some n => some (n + 1)
      | none => if lookaheadOk (c :: rest) then some 0 else none
    else if lookaheadOk (c :: rest) then some 0 else none

/-- Greedy `,?` followed by `\s*(?=...)`: the branch consuming the comma
is tried first, then the empty branch at the same position. -/
def commaWsLookahead (l : List Char) : Option Nat :=
  match l with
  | ',' :: rest =>
    match tryWsThenLookahead rest with
    | some n => some (n + 1)
    | none => tryWsThenLookahead l
  | _ => tryWsThenLookahead l

/-- The suffix `\s*,?\s*(?=\w+\s*:|$|\x7d)` of the colors-block regex,
immediately after the closing brace: greedy outer `\s*` with backtracking
into the `,?\s*` part.  Returns the number of characters consumed. -/
def sufMatch : List Char → Option Nat
  | [] => commaWsLookahead []
  | c :: rest =>
    if jsIsSpace c then
      match sufMatch rest with
      | some n => some (n + 1)
      | none => commaWsLookahead (c :: rest)
    else commaWsLookahead (c :: rest)

/-- The lazy group `([\s\S]*?)` followed by `\x7d` and the suffix: the
shortest block ending at a `\x7d` whose suffix (and lookahead) matches is
chosen; a `\x7d` whose suffix fails is absorbed into the block.  Returns
the block and the remainder of the input after the whole match. -/
def lazyBlock : List Char → Option (List Char × List Char)
  | [] => none
  | c :: rest =>
    if c == '\x7d' then
      match sufMatch rest with
      | some n => some ([], rest.drop n)
      | none =>
        match lazyBlock rest with
        | some (b, r) => some (c :: b, r)
        | none => none
    else
      match lazyBlock rest with
      | some (b, r) => some (c :: b, r)
      | none => none

/-- The head `colors\s*:\s*\x7b` of the colors-block regex at a given
position; returns the remainder after the opening brace.  No backtracking
arises: whitespace never matches `:` or the brace. -/
def matchColorsHead (l : List Char) : Option (List Char) :=
  if "colors".data.isPrefixOf l then
    match (l.drop 6).dropWhile jsIsSpace with
    | ':' :: l2 =>
      match l2.dropWhile jsIsSpace with
      | '\x7b' :: l3 => some l3
      | _ => none
    | _ => none
  else none

/-- Leftmost-first search for the colors-block regex
`colors\s*:\s*\x7b([\s\S]*?)\x7d\s*,?\s*(?=\w+\s*:|$|\x7d)` of
`updateUnoColors`: returns `(prefix before the match, captured block,
remainder after the match)` for the first position at which the whole
pattern matches. -/
def findColors : List Char → Option (List Char × List Char × List Char)
  | [] => none
  | c :: rest =>
    match matchColorsHead (c :: rest) with
    | some afterBrace =>
      match lazyBlock afterBrace with
      | some (block, r) => some ([], block, r)
      | none =>
        match findColors rest with
        | some (pre, b, r) => some (c :: pre, b, r)
        | none => none
    | none =>
      match findColors rest with
      | some (pre, b, r) => some (c :: pre, b, r)
      | none => none

/-- The flat pattern `(token\s*:\s*)(['"])([^'"]+)\2` of `updateUnoColors`
at the start of `l` (the token is a regex-escaped literal).  On a match,
returns the matched length and its replacement `$1"value"`.  Greedy
`[^'"]+` needs no backtracking: it always stops at a quote, which must
then equal the opening one. -/
def simpleMatchAt (token value l : List Char) : Option (Nat × List Char) :=
  if token.isPrefixOf l then
    let afterTok := l.drop token.length
    let w1 := (afterTok.takeWhile jsIsSpace).length
    match afterTok.drop w1 with
    | ':' :: l2 =>
      let w2 := (l2.takeWhile jsIsSpace).length
      match l2.drop w2 with
      | q :: l3 =>
        if isQuoteChar q then
          let inner := l3.takeWhile (fun c => !isQuoteChar c)
          if inner.isEmpty then none
          else
            match l3.drop inner.length with
            | q2 :: _ =>
              if q2 == q then
                some (token.length + w1 + 1 + w2 + 1 + inner.length + 1,
                  l.take (token.length + w1 + 1 + w2) ++ '"' :: value ++ ['"'])
              else none
            | [] => none
        else none
      | [] => none
    | _ => none
  else none

/-- The sub-pattern `DEFAULT\s*:\s*(['"])([^'"]+)\1` at the start of `l`;
on a match returns `(length of the part up to and including the second
\s*, total matched length)`. -/
def defaultValueAt (l : List Char) : Option (Nat × Nat) :=
  if "DEFAULT".data.isPrefixOf l then
    let l1 := l.drop 7
    let w1 := (l1.takeWhile jsIsSpace).length
    match l1.drop w1 with
    | ':' :: l2 =>
      let w2 := (l2.takeWhile jsIsSpace).length
      match l2.drop w2 with
      | q :: l3 =>
        if isQuoteChar q then
          let inner := l3.takeWhile (fun c => !isQuoteChar c)
          if inner.isEmpty then none
          else
            match l3.drop inner.length with
            | q2 :: _ =>
              if q2 == q then
                some (7 + w1 + 1 + w2, 7 + w1 + 1 + w2 + 1 + inner.length + 1)
              else none
            | [] => none
        else none
      | [] => none
    | _ => none
  else none

/-- Backtracking of the greedy `[^\x7d]*` before `DEFAULT`: positions are
tried from the end of the brace-free run downwards, so the last viable
`DEFAULT` assignment within the run is chosen. -/
def lastDefaultFrom (seg : List Char) : Nat → Option (Nat × Nat × Nat)
  | 0 =>
    match defaultValueAt seg with
    | some (g, t) => some (0, g, t)
    | none => none
  | p + 1 =>
    match defaultValueAt (seg.drop (p + 1)) with
    | some (g, t) => some (p + 1, g, t)
    | none => lastDefaultFrom seg p

/-- The nested pattern
`(token\s*:\s*\x7b[^\x7d]*DEFAULT\s*:\s*)(['"])([^'"]+)\2` of
`updateUnoColors` at the start of `l`; on a match returns the matched
length and its replacement `$1"value"`. -/
def nestedMatchAt (token value l : List Char) : Option (Nat × List Char) :=
  if token.isPrefixOf l then
    let afterTok := l.drop token.length
    let w1 := (afterTok.takeWhile jsIsSpace).length
    match afterTok.drop w1 with
    | ':' :: l2 =>
      let w2 := (l2.takeWhile jsIsSpace).length
      match l2.drop w2 with
      | '\x7b' :: seg =>
        let run := (seg.takeWhile (fun c => c != '\x7d')).length
        match lastDefaultFrom seg run with
        | some (p, g, t) =>
          let headLen := token.length + w1 + 1 + w2 + 1
          some (headLen + p + t,
            l.take (headLen + p + g) ++ '"' :: value ++ ['"'])
        | none => none
      | _ => none
    | _ => none
  else none

/-- Global (`g`-flag) replacement: scan left to right, replace each
non-overlapping match and continue after it.  Every match of the two
patterns above consumes at least one character; the fuel (always called
with the input length) only certifies termination. -/
def scanReplace (matchAt : List Char → Option (Nat × List Char)) :
    Nat → List Char → List Char
  | 0, l => l
  | _ + 1, [] => []
  | fuel + 1, c :: rest =>
    match matchAt (c :: rest) with
    | some (n, repl) => repl ++ scanReplace matchAt fuel (List.drop (n - 1) rest)
    | none => c :: scanReplace matchAt fuel rest

/-- `pattern.test(s)`: does the pattern match at some position of `l`? -/
def hasMatchIn (matchAt : List Char → Option (Nat × List Char))
    (l : List Char) : Bool :=
  l.tails.any (fun t => (matchAt t).isSome)

/-- The per-token loop of `updateUnoColors` over the captured colors
block: for each `(token, value)` entry (in `Object.entries` order), if the
flat pattern matches somewhere the flat replacement is applied, otherwise
the nested-`DEFAULT` replacement is applied (a no-op when it matches
nowhere). -/
def applyColorTokens (block : List Char) (colors : List (String × String)) :
    List Char :=
  colors.foldl (fun b tv =>
    if hasMatchIn (simpleMatchAt tv.1.data tv.2.data) b then
      scanReplace (simpleMatchAt tv.1.data tv.2.data) b.length b
    else
      scanReplace (nestedMatchAt tv.1.data tv.2.data) b.length b) block

/-- Shallow embedding of `updateUnoColors`
(`src/lib/templateInspect.ts` branding section, lines 250-295): locate the
first colors block, rewrite the requested tokens inside it, and splice the
result back as `colors: \x7b...\x7d,` in place of the original match. -/
def updateUnoColors (content : String) (colors : List (String × String)) :
    String :=
  match findColors content.data with
  | none => content
  | some (pre, block, rest) =>
    String.mk (pre ++ "colors: \x7b".data ++ applyColorTokens block colors
      ++ "\x7d,".data ++ rest)

/-- The final splice of `updateUnoColors` with the block left untouched:
what the function computes whenever no requested token matches anything
inside the block. -/
def normalizeColorsBlock (content : String) : String :=
  match findColors content.data with
  | none => content
  | some (pre, block, rest) =>
    String.mk (pre ++ "colors: \x7b".data ++ block ++ "\x7d,".data ++ rest)

/-- `BrandingOptions` from the branding module (`colors` keeps
`Object.entries` order). -/
structure BrandingOptions where
  colors : List (String × String)
  logoSvg : Option String

/-- `ApplyBrandingResult` from the branding module. -/
structure ApplyBrandingResult where
  modifiedFiles : List String
  warnings : List String
deriving DecidableEq

/-- `Array.prototype.findIndex` returning the index together with the
found element. -/
def findWithIdx (p : TemplateFile → Bool) :
    List TemplateFile → Nat → Option (Nat × TemplateFile)
  | [], _ => none
  | f :: rest, i => if p f then some (i, f) else findWithIdx p rest (i + 1)

/-- The theme-file test of `applyBranding`. -/
def isUnoConfigPath (f : TemplateFile) : Bool :=
  f.path == "uno.config.ts" || jsEndsWith f.path "/uno.config.ts"

/-- The logo-file test of `applyBranding`. -/
def isLogoPath (f : TemplateFile) : Bool :=
  f.path == "public/logo.svg" || f.path == "logo.svg"

/-- Shallow embedding of `applyBranding` (branding module, lines 186-244):
with a non-empty colors map, the first theme file is rewritten through
`updateUnoColors` — recorded as modified only when the text actually
changed, with the fixed warning otherwise, and a different warning when no
theme file exists; then the logo, when supplied, replaces the first
existing logo file or is appended at `public/logo.svg`.  The in-place
`files[i] = ...` mutations of the source become a returned updated list. -/
def applyBranding (files : List TemplateFile) (branding : BrandingOptions) :
    List TemplateFile × ApplyBrandingResult :=
  let colorsStep : List TemplateFile × List String × List String :=
    if 0 < branding.colors.length then
      match findWithIdx isUnoConfigPath files 0 with
      | some (i, unoFile) =>
        let updatedContent := updateUnoColors unoFile.content branding.colors
        if updatedContent ≠ unoFile.content then
          (files.set i ⟨unoFile.path, updatedContent, unoFile.encoding⟩,
           [unoFile.path], [])
        else
          (files, [],
           ["uno.config.ts found but no colors were updated - check color token names"])
      | none =>
        (files, [], ["uno.config.ts not found in template - colors not applied"])
    else (files, [], [])
  match colorsStep with
  | (files1, modified1, warns1) =>
    match branding.logoSvg with
    | some svg =>
      match findWithIdx isLogoPath files1 0 with
      | some (i, logoFile) =>
        (files1.set i ⟨logoFile.path, svg, Encoding.utf8⟩,
         ⟨modified1 ++ [logoFile.path], warns1⟩)
      | none =>
        (files1 ++ [⟨"public/logo.svg", svg, Encoding.utf8⟩],
         ⟨modified1 ++ ["public/logo.svg"], warns1⟩)
    | none => (files1, ⟨modified1, warns1⟩)

deriving instance DecidableEq for Except

deriving instance DecidableEq for PushOutcome

/-- A theme file whose colors block is matched by the colors-block regex
but is not re-serialized verbatim by the final splice: the matched text
ends in `\x7d` + newline, while the splice always emits `\x7d,`. -/
def cexUnoContent : String := "colors: \x7b primary: \"#fff\" \x7d\nfoo: 1"

/-- The normalized form of `cexUnoContent` — a fixed point of the final
splice of `updateUnoColors`. -/
def fixUnoContent : String := "colors: \x7b primary: \"#fff\" \x7d,foo: 1"

/-- A push environment in which the branch exists (the ref read returns a
tip) but the base-commit read fails, and every other remote call
succeeds. -/
def cexPushEnv : PushEnv where
  refLookup := some "tip0"
  commitLookup := none
  createBlob := fun f => .ok ("blob-" ++ f.path)
  createTree := fun _ _ => .ok "tree1"
  createCommit := fun _ _ _ => .ok ("commit1", "https://example.invalid/commit1")
  updateRef := fun _ => true

/-- A remote template directory holding one fetchable file and one file
whose download fails. -/
def cexDirFailing : List FsEntry :=
  [.file "app.vue" true "<template/>", .file "broken.vue" false "lost"]

/-- The same directory with the failing file simply absent. -/
def cexDirAbsent : List FsEntry := [.file "app.vue" true "<template/>"]

/-- C4: with no configured auth secret — `MCP_AUTH_TOKEN` unset or empty —
`assertAuthorized` rejects every request with the 500 misconfiguration
error, whatever credentials (including none at all) the request carries;
in particular no request is ever treated as authorized in that state. -/
theorem assertAuthorized_fail_closed :
    ∀ (authHeader xMcpKey : Option String),
      assertAuthorized none authHeader xMcpKey
        = .error ⟨500, "MCP_AUTH_TOKEN is not set on the server"⟩
      ∧ assertAuthorized (some "") authHeader xMcpKey
        = .error ⟨500, "MCP_AUTH_TOKEN is not set on the server"⟩ :=
  fun _ _ => ⟨rfl, rfl⟩

/-- C9: when the `authorization` header starts with `Bearer ` and the
token after the prefix is non-empty once trimmed, the authentication
outcome does not depend on the `X-MCP-Key` header at all; in particular a
mismatching bearer token is rejected even when `X-MCP-Key` carries the
configured secret. -/
theorem bearer_shadows_fallback (mcpAuthToken : Option String) (hdr : String)
    (xKey xKey' : Option String)
    (hPre : jsStartsWith hdr "Bearer " = true)
    (hNe : (jsTrim (jsDropChars hdr 7)).isEmpty = false) :
    assertAuthorized mcpAuthToken (some hdr) xKey
      = assertAuthorized mcpAuthToken (some hdr) xKey'
    ∧ (jsTrim (jsDropChars hdr 7) ≠ mcpAuthToken.getD "" →
       ∀ r, assertAuthorized mcpAuthToken (some hdr) xKey ≠ .ok r) := by
  constructor
  · by_cases hf : envFalsy mcpAuthToken = true
    · simp [assertAuthorized, hf]
    · simp [assertAuthorized, hf, hPre, hNe]
  · intro hne r
    by_cases hf : envFalsy mcpAuthToken = true
    · simp [assertAuthorized, hf]
    · simp [assertAuthorized, hf, hPre, hNe, hne]

/-- Witness for `bearer_shadows_fallback` at a concrete request: secret
`s`, bearer token `x`, fallback header carrying the secret versus absent. -/
theorem bearer_shadows_fallback_witness :
    jsStartsWith "Bearer x" "Bearer " = true
    ∧ (jsTrim (jsDropChars "Bearer x" 7)).isEmpty = false
    ∧ assertAuthorized (some "s") (some "Bearer x") (some "s")
        = assertAuthorized (some "s") (some "Bearer x") none :=
  ⟨by decide, by decide,
   (bearer_shadows_fallback (some "s") "Bearer x" (some "s") none
     (by decide) (by decide)).1⟩

/-- C6 counterexample: the dry-run `plan_storefront` tool — which performs
no side effects — does reject an owner absent from the allowlist: with
allowlist `other-org`, owner `mkucmus` is refused with a 403 (and no
remote fetch is issued), contradicting the claim that non-mutating
invocations are not subject to the allowlist. -/
theorem planStorefront_rejects_nonallowlisted_owner :
    planStorefrontRun (some "other-org") "mkucmus"
      = (.error ⟨403, "Owner not allowed: mkucmus"⟩, []) := by
  decide

/-- C6 amended: the owner allowlist is enforced on `plan_storefront` as
well as on `create_store_and_deploy`: in both tools a non-allowlisted
owner is rejected with a 403 before any remote call is issued. -/
theorem ownerAllowlist_enforced_before_side_effects
    (raw owner : String) (hraw : raw.isEmpty = false)
    (howner : owner ∉
      ((jsSplitComma raw).map jsTrim).filter (fun s => !s.isEmpty)) :
    planStorefrontRun (some raw) owner
      = (.error ⟨403, "Owner not allowed: " ++ owner⟩, [])
    ∧ createStoreAndDeployRun (some raw) owner
      = (.error ⟨403, "Owner not allowed: " ++ owner⟩, []) := by
  constructor <;>
    simp [planStorefrontRun, createStoreAndDeployRun, assertOwnerAllowed,
      hraw, howner]

/-- Witness for `ownerAllowlist_enforced_before_side_effects` at the
concrete allowlist `other-org` and owner `mkucmus`. -/
theorem ownerAllowlist_enforced_before_side_effects_witness :
    "other-org".isEmpty = false
    ∧ "mkucmus" ∉
        ((jsSplitComma "other-org").map jsTrim).filter (fun s => !s.isEmpty)
    ∧ planStorefrontRun (some "other-org") "mkucmus"
        = (.error ⟨403, "Owner not allowed: mkucmus"⟩, [])
    ∧ createStoreAndDeployRun (some "other-org") "mkucmus"
        = (.error ⟨403, "Owner not allowed: mkucmus"⟩, []) := by
  refine ⟨by decide, by decide, ?_⟩
  have h := ownerAllowlist_enforced_before_side_effects "other-org" "mkucmus"
    (by decide) (by decide)
  exact ⟨h.1, h.2⟩

/-- Helper: the clamped retry-after `max 1 ((x + 999) / 1000)` is at most
60 when `x ≤ 60000`. -/
theorem retryAfter_le_sixty {x : Nat} (h : x ≤ 60000) :
    Nat.max 1 ((x + 999) / 1000) ≤ 60 := by
  have h1 : (x + 999) / 1000 ≤ 60999 / 1000 :=
    Nat.div_le_div_right (by omega)
  have h2 : (60999 : Nat) / 1000 = 60 := by decide
  exact Nat.max_le.mpr ⟨by omega, by omega⟩

/-- C5: with `max = 3` and `window = 60` seconds, for one key starting
with no stored state: three requests inside the window succeed with
`remaining` 2, 1, 0 in order; the fourth inside the window throws a 429
whose `retryAfterSec` lies between 1 and 60 (the remaining window time,
clamped); and a request arriving once the window has elapsed starts a new
window with the stored count reset to 1. -/
theorem assertRateLimited_quota (t0 t1 t2 t3 t4 : Nat)
    (h01 : t0 ≤ t1) (h12 : t1 ≤ t2) (h23 : t2 ≤ t3)
    (hwin : t3 - t0 < 60000) (hreset : t0 + 60000 ≤ t4) :
    assertRateLimited 3 60 t0 none = .ok (⟨t0, 1⟩, ⟨2, 60⟩)
    ∧ assertRateLimited 3 60 t1 (some ⟨t0, 1⟩)
        = .ok (⟨t0, 2⟩, ⟨1, Nat.max 1 ((t0 + 60000 - t1 + 999) / 1000)⟩)
    ∧ assertRateLimited 3 60 t2 (some ⟨t0, 2⟩)
        = .ok (⟨t0, 3⟩, ⟨0, Nat.max 1 ((t0 + 60000 - t2 + 999) / 1000)⟩)
    ∧ (assertRateLimited 3 60 t3 (some ⟨t0, 3⟩)
        = .error ⟨429, 3, 60, Nat.max 1 ((t0 + 60000 - t3 + 999) / 1000)⟩
       ∧ 1 ≤ Nat.max 1 ((t0 + 60000 - t3 + 999) / 1000)
       ∧ Nat.max 1 ((t0 + 60000 - t3 + 999) / 1000) ≤ 60)
    ∧ assertRateLimited 3 60 t4 (some ⟨t0, 3⟩) = .ok (⟨t4, 1⟩, ⟨2, 60⟩) := by
  have hw : rateWindowMs 60 = 60000 := by decide
  have hn1 : ¬ (60000 ≤ t1 - t0) := by omega
  have hn2 : ¬ (60000 ≤ t2 - t0) := by omega
  have hn3 : ¬ (60000 ≤ t3 - t0) := by omega
  have hy4 : 60000 ≤ t4 - t0 := by omega
  refine ⟨?_, ?_, ?_, ⟨?_, ?_, ?_⟩, ?_⟩
  · simp [assertRateLimited]
  · simp [assertRateLimited, hw, hn1]
  · simp [assertRateLimited, hw, hn2]
  · simp [assertRateLimited, hw, hn3]
  · exact Nat.le_max_left 1 _
  · exact retryAfter_le_sixty (by omega)
  · simp [assertRateLimited, hw, hy4]

/-- Witness for `assertRateLimited_quota` at the concrete call times
0, 1, 2, 3 and 60000. -/
theorem assertRateLimited_quota_witness :
    (0 : Nat) ≤ 1 ∧ (1 : Nat) ≤ 2 ∧ (2 : Nat) ≤ 3
    ∧ (3 : Nat) - 0 < 60000 ∧ (0 : Nat) + 60000 ≤ 60000
    ∧ assertRateLimited 3 60 0 none = .ok (⟨0, 1⟩, ⟨2, 60⟩)
    ∧ (assertRateLimited 3 60 3 (some ⟨0, 3⟩)
        = .error ⟨429, 3, 60, Nat.max 1 ((0 + 60000 - 3 + 999) / 1000)⟩
       ∧ Nat.max 1 ((0 + 60000 - 3 + 999) / 1000) ≤ 60)
    ∧ assertRateLimited 3 60 60000 (some ⟨0, 3⟩) = .ok (⟨60000, 1⟩, ⟨2, 60⟩) := by
  have h := assertRateLimited_quota 0 1 2 3 60000
    (by decide) (by decide) (by decide) (by decide) (by decide)
  exact ⟨by decide, by decide, by decide, by decide, by decide,
    h.1, ⟨h.2.2.2.1.1, h.2.2.2.1.2.2⟩, h.2.2.2.2⟩

/-- Helper: one `assertRateLimited` call preserves the stored-count
invariant `1 ≤ count ≤ max` (for `1 ≤ max`): a fresh window stores count
1, a within-window success increments a count that was strictly below
`max`, and a 429 leaves the state untouched. -/
theorem rate_step_inv (max windowSec now : Nat) (hmax : 1 ≤ max)
    (st : Option RateState) (hst : rateInv max st) :
    rateInv max
      (match assertRateLimited max windowSec now st with
       | .ok (s', _) => some s'
       | .error _ => st) := by
  match st with
  | none =>
    simp [assertRateLimited, rateInv]
    omega
  | some s =>
    by_cases hfresh : rateWindowMs windowSec ≤ now - s.windowStartMs
    · simp [assertRateLimited, hfresh, rateInv]
      omega
    · by_cases hover : max ≤ s.count
      · simp [assertRateLimited, hfresh, hover, rateInv]
        exact hst
      · simp [assertRateLimited, hfresh, hover, rateInv] at hst ⊢
        omega

/-- C10: with any configured `max ≥ 1`, every sequence of
`assertRateLimited` calls preserves the invariant that a stored count
satisfies `1 ≤ count ≤ max` (a call that would push the count past `max`
throws a 429 and stores nothing), and the `remaining` value handed to a
successful caller is never negative. -/
theorem rateLimiter_invariant (max windowSec : Nat) (hmax : 1 ≤ max) :
    (∀ (calls : List Nat) (st : Option RateState), rateInv max st →
      rateInv max (rateRun max windowSec calls st))
    ∧ (∀ (now : Nat) (st : Option RateState) (s' : RateState)
        (info : RateSuccess),
        assertRateLimited max windowSec now st = .ok (s', info) →
        0 ≤ info.remaining)
    ∧ (∀ (now : Nat) (s : RateState), max ≤ s.count →
        now - s.windowStartMs < rateWindowMs windowSec →
        ∃ e, assertRateLimited max windowSec now (some s) = .error e
          ∧ e.statusCode = 429) := by
  refine ⟨?_, ?_, ?_⟩
  · intro calls
    induction calls with
    | nil => intro st hst; exact hst
    | cons now rest ih =>
      intro st hst
      have h1 := rate_step_inv max windowSec now hmax st hst
      simpa [rateRun] using ih _ h1
  · intro now st s' info h
    match st with
    | none =>
      simp [assertRateLimited] at h
      rcases h with ⟨-, h2⟩
      rw [← h2]
      exact le_max_left 0 _
    | some s =>
      by_cases hfresh : rateWindowMs windowSec ≤ now - s.windowStartMs
      · simp [assertRateLimited, hfresh] at h
        rcases h with ⟨-, h2⟩
        rw [← h2]
        exact le_max_left 0 _
      · by_cases hover : max ≤ s.count
        · simp [assertRateLimited, hfresh, hover] at h
        · simp [assertRateLimited, hfresh, hover] at h
          rcases h with ⟨-, h2⟩
          rw [← h2]
          exact le_max_left 0 _
  · intro now s hover hin
    have hfresh : ¬ (rateWindowMs windowSec ≤ now - s.windowStartMs) := by
      omega
    exact ⟨⟨429, max, windowSec,
        Nat.max 1 ((s.windowStartMs + rateWindowMs windowSec - now + 999)
          / 1000)⟩,
      by simp [assertRateLimited, hfresh, hover], rfl⟩

/-- Witness for `rateLimiter_invariant` at `max = 3`, `window = 60`,
with the call sequence `5, 10, 20, 30, 70000` from an empty table. -/
theorem rateLimiter_invariant_witness :
    (1 : Nat) ≤ 3
    ∧ rateInv 3 (rateRun 3 60 [5, 10, 20, 30, 70000] none) :=
  ⟨by decide,
   (rateLimiter_invariant 3 60 (by decide)).1 [5, 10, 20, 30, 70000] none
     trivial⟩

/-- Helper: `fetchDirectoryRecursive` produces the same file list whether
a failing file is present in the remote tree or absent from it — the
`catch`-and-skip in the source leaves no trace of the failure. -/
theorem fetchDirectoryRecursive_prune (l : List FsEntry) (rel : String) :
    fetchDirectoryRecursive rel (pruneFailing l)
      = fetchDirectoryRecursive rel l :=
  match l with
  | [] => by simp [pruneFailing]
  | FsEntry.file name ok content :: rest => by
    cases ok <;>
      simp [pruneFailing, fetchDirectoryRecursive,
        fetchDirectoryRecursive_prune rest rel]
  | FsEntry.dir name entries :: rest => by
    simp [pruneFailing, fetchDirectoryRecursive,
      fetchDirectoryRecursive_prune entries (joinRel rel name),
      fetchDirectoryRecursive_prune rest rel]

/-- C7 counterexample: a resolve in which one file fails to download and
is skipped is not observable to the caller: on a remote tree holding a
fetchable `app.vue` and a failing `broken.vue`, `fetchTemplate` returns a
value equal — in every field — to the one returned for the tree in which
`broken.vue` never existed, so no field of `FetchTemplateResult` (which
carries only `files`, `template`, `ref`) distinguishes a complete fetch
from a best-effort incomplete one. -/
theorem fetchTemplate_silent_skip :
    fetchTemplateBase cexDirFailing "vue-starter-template" "main"
      = fetchTemplateBase cexDirAbsent "vue-starter-template" "main"
    ∧ cexDirFailing = cexDirAbsent ++ [FsEntry.file "broken.vue" false "lost"]
    ∧ ∀ f ∈ (fetchTemplateBase cexDirFailing "vue-starter-template"
        "main").files, f.path ≠ "broken.vue" := by
  have hb1 : isBinaryName "app.vue" = false := by decide
  have hb2 : isBinaryName "broken.vue" = false := by decide
  refine ⟨?_, rfl, ?_⟩
  · simp [fetchTemplateBase, cexDirFailing, cexDirAbsent,
      fetchDirectoryRecursive, joinRel, hb1, hb2]
  · intro f hf
    simp [fetchTemplateBase, cexDirFailing,
      fetchDirectoryRecursive, joinRel, hb1, hb2] at hf
    subst hf
    decide

/-- C7 amended: a file that fails to download is skipped silently:
`FetchTemplateResult` exposes no fetch-failure counter or list — its
`files` are exactly those of the pruned tree in which every failing file
is absent, so a best-effort incomplete resolve is indistinguishable from a
complete resolve of the smaller tree. -/
theorem fetchTemplate_skips_unobservable :
    ∀ (dir : List FsEntry) (template ref : String),
      fetchTemplateBase dir template ref
        = fetchTemplateBase (pruneFailing dir) template ref :=
  fun dir template ref => by
    unfold fetchTemplateBase
    rw [fetchDirectoryRecursive_prune]

/-- Helper: keys after a `Map.set`: unchanged when the key was present,
appended otherwise. -/
theorem keys_fileMapSet (m : List (String × TemplateFile)) (k : String)
    (v : TemplateFile) :
    (fileMapSet m k v).map Prod.fst
      = if k ∈ m.map Prod.fst then m.map Prod.fst
        else m.map Prod.fst ++ [k] := by
  by_cases h : k ∈ m.map Prod.fst
  · simp only [fileMapSet, if_pos h, List.map_map]
    apply List.map_congr_left
    intro kv _
    by_cases hkv : kv.1 = k <;> simp [hkv]
  · simp [fileMapSet, h]

/-- Helper: membership in the keys after a `Map.set`. -/
theorem mem_keys_fileMapSet (m : List (String × TemplateFile))
    (k k' : String) (v : TemplateFile) :
    k' ∈ (fileMapSet m k v).map Prod.fst
      ↔ k' ∈ m.map Prod.fst ∨ k' = k := by
  rw [keys_fileMapSet]
  by_cases h : k ∈ m.map Prod.fst
  · rw [if_pos h]
    constructor
    · exact Or.inl
    · rintro (h' | rfl)
      · exact h'
      · exact h
  · simp [h]

/-- Helper: key nodup-ness is preserved by `Map.set`. -/
theorem nodupKeys_fileMapSet (m : List (String × TemplateFile))
    (k : String) (v : TemplateFile) (h : (m.map Prod.fst).Nodup) :
    ((fileMapSet m k v).map Prod.fst).Nodup := by
  rw [keys_fileMapSet]
  by_cases hk : k ∈ m.map Prod.fst
  · simpa [hk]
  · simp [hk, List.nodup_append, h]

/-- Helper: lookup after replacing the value stored at a present key. -/
theorem fileMapGet_replace (m : List (String × TemplateFile))
    (k k' : String) (v : TemplateFile) :
    fileMapGet (m.map (fun kv => if kv.1 = k then (k, v) else kv)) k'
      = if k' = k then (if k ∈ m.map Prod.fst then some v else none)
        else fileMapGet m k' := by
  induction m with
  | nil => by_cases h : k' = k <;> simp [fileMapGet, h]
  | cons kv rest ih =>
    simp only [List.map_cons]
    by_cases hkv : kv.1 = k
    · by_cases hk' : k' = k
      · subst hk'
        simp [fileMapGet, hkv]
      · have hne : ¬ (k = k') := fun h => hk' h.symm
        have hne2 : ¬ (kv.1 = k') := by rw [hkv]; exact hne
        simp only [fileMapGet] at ih
        simp only [List.find?_map, Option.map_map] at ih
        simp [fileMapGet, hkv, hne, hne2, hk', ih]
    · by_cases hp : kv.1 = k'
      · have hk' : ¬ (k' = k) := fun he => hkv (hp.trans he)
        simp [fileMapGet, hkv, hp, hk']
      · have hne3 : ¬ (k = kv.1) := fun h => hkv h.symm
        simp only [fileMapGet] at ih
        simp only [List.find?_map, Option.map_map] at ih
        simp [fileMapGet, hkv, hp, hne3, ih]
        by_cases hk' : k' = k
        · by_cases hk2 : k ∈ List.map Prod.fst rest
          · have h2 : k ∈ kv.1 :: List.map Prod.fst rest :=
              List.mem_cons_of_mem _ hk2
            simp [hk', hk2, h2]
          · have h2 : k ∉ kv.1 :: List.map Prod.fst rest := by
              simp [List.mem_cons, hne3, hk2]
            simp [hk', hk2, h2]
        · simp [hk']

/-- Helper: lookup after appending a fresh key at the end. -/
theorem fileMapGet_append_single (m : List (String × TemplateFile))
    (k k' : String) (v : TemplateFile) (h : k ∉ m.map Prod.fst) :
    fileMapGet (m ++ [(k, v)]) k'
      = if k' = k then some v else fileMapGet m k' := by
  induction m with
  | nil =>
    by_cases hk' : k' = k
    · subst hk'
      simp [fileMapGet]
    · have h2 : ¬ (k = k') := fun he => hk' he.symm
      simp [fileMapGet, hk', h2]
  | cons kv rest ih =>
    simp only [List.map_cons, List.mem_cons] at h
    push_neg at h
    by_cases hp : kv.1 = k'
    · have hk' : ¬ (k' = k) := fun he => h.1 ((hp.trans he).symm)
      simp [fileMapGet, hp, hk']
    · simpa [fileMapGet, List.cons_append, hp] using ih h.2

/-- Helper: lookup after a `Map.set`: the set key now yields the new
value, every other key is untouched. -/
theorem fileMapGet_fileMapSet (m : List (String × TemplateFile))
    (k k' : String) (v : TemplateFile) :
    fileMapGet (fileMapSet m k v) k'
      = if k' = k then some v else fileMapGet m k' := by
  by_cases h : k ∈ m.map Prod.fst
  · rw [fileMapSet, if_pos h, fileMapGet_replace]
    by_cases hk' : k' = k <;> simp [hk', h]
  · rw [fileMapSet, if_neg h, fileMapGet_append_single m k k' v h]

/-- The invariant that each map entry's stored file has the entry's key as
its path — true of every map `mergeFiles` builds, since files are keyed by
their own path. -/
def mapPathInv (m : List (String × TemplateFile)) : Prop :=
  ∀ kv ∈ m, kv.2.path = kv.1

/-- Helper: the path invariant is preserved by `Map.set` with a file keyed
by its own path. -/
theorem mapPathInv_fileMapSet (m : List (String × TemplateFile))
    (k : String) (v : TemplateFile) (hv : v.path = k) (h : mapPathInv m) :
    mapPathInv (fileMapSet m k v) := by
  intro kv hkv
  by_cases hmem : k ∈ m.map Prod.fst
  · rw [fileMapSet, if_pos hmem] at hkv
    rcases List.mem_map.mp hkv with ⟨kv0, hkv0, heq⟩
    by_cases h0 : kv0.1 = k
    · rw [if_pos h0] at heq
      rw [← heq]
      exact hv
    · rw [if_neg h0] at heq
      rw [← heq]
      exact h kv0 hkv0
  · rw [fileMapSet, if_neg hmem] at hkv
    rcases List.mem_append.mp hkv with h1 | h1
    · exact h kv h1
    · rcases List.mem_singleton.mp h1 with rfl
      exact hv

/-- Helper: membership in the keys after inserting a whole file list. -/
theorem mem_keys_fileMapInsertAll (files : List TemplateFile) :
    ∀ (m : List (String × TemplateFile)) (k : String),
      k ∈ (fileMapInsertAll m files).map Prod.fst
        ↔ k ∈ m.map Prod.fst ∨ k ∈ files.map TemplateFile.path := by
  induction files with
  | nil => intro m k; simp [fileMapInsertAll]
  | cons f rest ih =>
    intro m k
    show k ∈ (fileMapInsertAll (fileMapSet m f.path f) rest).map Prod.fst ↔ _
    rw [ih, mem_keys_fileMapSet]
    simp only [List.map_cons, List.mem_cons]
    tauto

/-- Helper: key nodup-ness is preserved by inserting a file list. -/
theorem nodup_fileMapInsertAll (files : List TemplateFile) :
    ∀ (m : List (String × TemplateFile)), (m.map Prod.fst).Nodup →
      ((fileMapInsertAll m files).map Prod.fst).Nodup := by
  induction files with
  | nil => intro m h; exact h
  | cons f rest ih =>
    intro m h
    exact ih _ (nodupKeys_fileMapSet m f.path f h)

/-- Helper: the path invariant is preserved by inserting a file list. -/
theorem pathInv_fileMapInsertAll (files : List TemplateFile) :
    ∀ (m : List (String × TemplateFile)), mapPathInv m →
      mapPathInv (fileMapInsertAll m files) := by
  induction files with
  | nil => intro m h; exact h
  | cons f rest ih =>
    intro m h
    exact ih _ (mapPathInv_fileMapSet m f.path f rfl h)

/-- Helper: a path absent from a file list is found nowhere in it. -/
theorem filesLookup_eq_none (files : List TemplateFile) (p : String)
    (h : p ∉ files.map TemplateFile.path) : filesLookup files p = none := by
  apply List.find?_eq_none.mpr
  intro f hf
  simp only [decide_eq_true_eq]
  intro he
  exact h (List.mem_map.mpr ⟨f, hf, he⟩)

/-- Helper: lookup after inserting a path-unique file list: a path present
in the list yields the list's entry, everything else falls through to the
previous map. -/
theorem fileMapGet_fileMapInsertAll (files : List TemplateFile)
    (hnd : (files.map TemplateFile.path).Nodup) :
    ∀ (m : List (String × TemplateFile)) (k : String),
      fileMapGet (fileMapInsertAll m files) k
        = match filesLookup files k with
          | some f => some f
          | none => fileMapGet m k := by
  induction files with
  | nil => intro m k; simp [fileMapInsertAll, filesLookup]
  | cons f rest ih =>
    simp only [List.map_cons, List.nodup_cons] at hnd
    intro m k
    show fileMapGet (fileMapInsertAll (fileMapSet m f.path f) rest) k = _
    rw [ih hnd.2, fileMapGet_fileMapSet]
    by_cases hk : f.path = k
    · have hrest : List.find? (fun g => decide (g.path = k)) rest = none :=
        filesLookup_eq_none rest k (hk ▸ hnd.1)
      simp [filesLookup, List.find?, hk, hrest]
    · have hfind : filesLookup (f :: rest) k = filesLookup rest k := by
        simp [filesLookup, List.find?, hk]
      rw [hfind]
      cases hr : filesLookup rest k with
      | none =>
        have hne : ¬ (k = f.path) := fun h => hk h.symm
        simp [hne]
      | some g => simp

/-- Helper: looking a path up among a map's values agrees with the map
lookup, given the path invariant. -/
theorem filesLookup_values (m : List (String × TemplateFile))
    (h : mapPathInv m) (p : String) :
    filesLookup (m.map Prod.snd) p = (fileMapGet m p : Option TemplateFile) := by
  induction m with
  | nil => simp [filesLookup, fileMapGet]
  | cons kv rest ih =>
    have hkv : kv.2.path = kv.1 := h kv (List.mem_cons_self kv rest)
    have hrest : mapPathInv rest := fun x hx => h x (List.mem_cons_of_mem _ hx)
    by_cases hp : kv.1 = p
    · simp [filesLookup, fileMapGet, List.find?, hkv, hp]
    · simp only [filesLookup, fileMapGet] at ih
      simp [filesLookup, fileMapGet, List.find?, hkv, hp, ih hrest]

/-- Helper: the paths of a map's values are its keys, given the path
invariant. -/
theorem values_paths (m : List (String × TemplateFile)) (h : mapPathInv m) :
    (m.map Prod.snd).map TemplateFile.path = m.map Prod.fst := by
  rw [List.map_map]
  apply List.map_congr_left
  intro kv hkv
  exact h kv hkv

/-- C2: `mergeFiles A B` over path-unique file arrays: every path of
`A ∪ B` occurs exactly once in the result; a path present in `B` carries
`B`'s entry (extension wins, also when the path is in both); a path only
in `A` carries `A`'s entry. -/
theorem mergeFiles_extension_wins (A B : List TemplateFile)
    (hA : (A.map TemplateFile.path).Nodup)
    (hB : (B.map TemplateFile.path).Nodup) :
    (∀ p : String,
      ((mergeFiles A B).map TemplateFile.path).count p
        = if p ∈ A.map TemplateFile.path ∨ p ∈ B.map TemplateFile.path
          then 1 else 0)
    ∧ (∀ p, p ∈ B.map TemplateFile.path →
        filesLookup (mergeFiles A B) p = filesLookup B p)
    ∧ (∀ p, p ∉ B.map TemplateFile.path → p ∈ A.map TemplateFile.path →
        filesLookup (mergeFiles A B) p = filesLookup A p) := by
  have hInvA : mapPathInv (fileMapInsertAll [] A) :=
    pathInv_fileMapInsertAll A [] (by intro kv h; cases h)
  have hInv : mapPathInv (fileMapInsertAll (fileMapInsertAll [] A) B) :=
    pathInv_fileMapInsertAll B _ hInvA
  have hNdA : ((fileMapInsertAll [] A).map Prod.fst).Nodup :=
    nodup_fileMapInsertAll A [] (by simp)
  have hNd :
      ((fileMapInsertAll (fileMapInsertAll [] A) B).map Prod.fst).Nodup :=
    nodup_fileMapInsertAll B _ hNdA
  have hKeys : ∀ k,
      k ∈ (fileMapInsertAll (fileMapInsertAll [] A) B).map Prod.fst
        ↔ k ∈ A.map TemplateFile.path ∨ k ∈ B.map TemplateFile.path := by
    intro k
    rw [mem_keys_fileMapInsertAll, mem_keys_fileMapInsertAll]
    simp
  have hGet : ∀ k,
      fileMapGet (fileMapInsertAll (fileMapInsertAll [] A) B) k
        = match filesLookup B k with
          | some f => some f
          | none =>
            match filesLookup A k with
            | some g => some g
            | none => none := by
    intro k
    rw [fileMapGet_fileMapInsertAll B hB, fileMapGet_fileMapInsertAll A hA]
    cases filesLookup B k <;> cases filesLookup A k <;>
      simp [fileMapGet]
  have hLook : ∀ p, filesLookup (mergeFiles A B) p
      = fileMapGet (fileMapInsertAll (fileMapInsertAll [] A) B) p := by
    intro p
    exact filesLookup_values _ hInv p
  refine ⟨?_, ?_, ?_⟩
  · intro p
    have hpaths : (mergeFiles A B).map TemplateFile.path
        = (fileMapInsertAll (fileMapInsertAll [] A) B).map Prod.fst :=
      values_paths _ hInv
    rw [mergeFiles] at hpaths ⊢
    rw [hpaths]
    by_cases hmem : p ∈ A.map TemplateFile.path ∨ p ∈ B.map TemplateFile.path
    · rw [if_pos hmem]
      exact List.count_eq_one_of_mem hNd ((hKeys p).mpr hmem)
    · rw [if_neg hmem]
      exact List.count_eq_zero_of_not_mem (fun h => hmem ((hKeys p).mp h))
  · intro p hp
    rw [hLook, hGet]
    rcases List.mem_map.mp hp with ⟨f, hf, hfp⟩
    have hsome : (filesLookup B p).isSome := by
      apply List.find?_isSome.mpr
      exact ⟨f, hf, by simp [hfp]⟩
    cases hB' : filesLookup B p with
    | none => simp [hB'] at hsome
    | some g => simp
  · intro p hpB hpA
    rw [hLook, hGet, filesLookup_eq_none B p hpB]
    rcases List.mem_map.mp hpA with ⟨f, hf, hfp⟩
    have hsome : (filesLookup A p).isSome := by
      apply List.find?_isSome.mpr
      exact ⟨f, hf, by simp [hfp]⟩
    cases hA' : filesLookup A p with
    | none => simp [hA'] at hsome
    | some g => simp

/-- Witness for `mergeFiles_extension_wins` on overlapping two-file
arrays: path `a` is in both (the override's content wins), `c` only in the
base, `b` only in the override. -/
theorem mergeFiles_extension_wins_witness :
    (([⟨"a", "1", .utf8⟩, ⟨"c", "3", .utf8⟩]
        : List TemplateFile).map TemplateFile.path).Nodup
    ∧ (([⟨"a", "2", .utf8⟩, ⟨"b", "4", .utf8⟩]
        : List TemplateFile).map TemplateFile.path).Nodup
    ∧ filesLookup
        (mergeFiles [⟨"a", "1", .utf8⟩, ⟨"c", "3", .utf8⟩]
          [⟨"a", "2", .utf8⟩, ⟨"b", "4", .utf8⟩]) "a"
        = filesLookup [⟨"a", "2", .utf8⟩, ⟨"b", "4", .utf8⟩] "a" := by
  have h := mergeFiles_extension_wins
    [⟨"a", "1", .utf8⟩, ⟨"c", "3", .utf8⟩]
    [⟨"a", "2", .utf8⟩, ⟨"b", "4", .utf8⟩]
    (by decide) (by decide)
  exact ⟨by decide, by decide, h.2.1 "a" (by decide)⟩

/-- Helper: the sequential blob stage throws exactly when some file's blob
creation fails. -/
theorem mkBlobs_error_iff (env : PushEnv) (files : List TemplateFile) :
    exceptIsError (mkBlobs env files) = true
      ↔ ∃ f ∈ files, exceptIsError (env.createBlob f) = true := by
  induction files with
  | nil => simp [mkBlobs, exceptIsError]
  | cons f rest ih =>
    cases hb : env.createBlob f with
    | error e => simp [mkBlobs, hb, exceptIsError]
    | ok sha =>
      cases hr : mkBlobs env rest with
      | error e =>
        rw [hr] at ih
        simp only [mkBlobs, hb, hr]
        simp only [exceptIsError] at ih ⊢
        simp [hb, exceptIsError, ← ih]
      | ok items =>
        rw [hr] at ih
        simp only [mkBlobs, hb, hr]
        simp only [exceptIsError] at ih ⊢
        simp [hb, exceptIsError, ← ih]

/-- Helper: when the blob, tree and commit stages all succeeded, none of
the three stage-failure conditions holds. -/
theorem push_stages_ok_no_failure (env : PushEnv) (files : List TemplateFile)
    (msg : String) (T : String) (items : List TreeItem) (treeSha c u : String)
    (hmb : mkBlobs env files = .ok items)
    (hct : env.createTree items (baseTreeOf env) = .ok treeSha)
    (hcc : env.createCommit msg treeSha [T] = .ok (c, u)) :
    ¬ ((∃ f ∈ files, exceptIsError (env.createBlob f) = true)
       ∨ (∃ items', mkBlobs env files = .ok items'
           ∧ exceptIsError (env.createTree items' (baseTreeOf env)) = true)
       ∨ (∃ items' treeSha', mkBlobs env files = .ok items'
           ∧ env.createTree items' (baseTreeOf env) = .ok treeSha'
           ∧ exceptIsError (env.createCommit msg treeSha' [T]) = true)) := by
  rintro (⟨f, hf, hbf⟩ | ⟨items', hi', hterr⟩ | ⟨items', ts', hi', hct', hcerr⟩)
  · have h := (mkBlobs_error_iff env files).mpr ⟨f, hf, hbf⟩
    rw [hmb] at h
    simp [exceptIsError] at h
  · rw [hmb] at hi'
    injection hi' with h
    subst h
    rw [hct] at hterr
    simp [exceptIsError] at hterr
  · rw [hmb] at hi'
    injection hi' with h
    subst h
    rw [hct] at hct'
    injection hct' with h2
    subst h2
    rw [hcc] at hcerr
    simp [exceptIsError] at hcerr

/-- C1: publishing to an existing branch is transactional: (a) a thrown
run leaves the branch ref at its prior tip; (b) a failure in the blob,
tree or commit stage throws before any ref-update request is issued; (c)
the ref moves only through a successful run's issued ref update, onto the
new commit; (d) a failed ref update throws — a ref change is never
reported as success when the update failed. -/
theorem pushFiles_transactional (env : PushEnv) (files : List TemplateFile)
    (msg branch : String) (T : String) (hT : env.refLookup = some T) :
    (exceptIsError (pushFilesRun env (some T) files msg branch).result = true →
      (pushFilesRun env (some T) files msg branch).finalRef = some T)
    ∧ (((∃ f ∈ files, exceptIsError (env.createBlob f) = true)
        ∨ (∃ items, mkBlobs env files = .ok items
            ∧ exceptIsError (env.createTree items (baseTreeOf env)) = true)
        ∨ (∃ items treeSha, mkBlobs env files = .ok items
            ∧ env.createTree items (baseTreeOf env) = .ok treeSha
            ∧ exceptIsError (env.createCommit msg treeSha [T]) = true)) →
      exceptIsError (pushFilesRun env (some T) files msg branch).result = true
        ∧ (pushFilesRun env (some T) files msg branch).refReq = none)
    ∧ ((pushFilesRun env (some T) files msg branch).finalRef ≠ some T →
      ∃ r, (pushFilesRun env (some T) files msg branch).result = .ok r
        ∧ (pushFilesRun env (some T) files msg branch).refReq ≠ none
        ∧ (pushFilesRun env (some T) files msg branch).finalRef
            = some r.commitSha)
    ∧ (∀ req, (pushFilesRun env (some T) files msg branch).refReq = some req →
      env.updateRef req = false →
      exceptIsError (pushFilesRun env (some T) files msg branch).result = true
        ∧ (pushFilesRun env (some T) files msg branch).finalRef = some T) := by
  cases hmb : mkBlobs env files with
  | error e =>
    refine ⟨?_, ?_, ?_, ?_⟩ <;> simp [pushFilesRun, hmb, exceptIsError]
  | ok items =>
    cases hct : env.createTree items (baseTreeOf env) with
    | error e =>
      refine ⟨?_, ?_, ?_, ?_⟩ <;> simp [pushFilesRun, hmb, hct, hT, exceptIsError]
    | ok treeSha =>
      cases hcc : env.createCommit msg treeSha [T] with
      | error e =>
        have hcc' : env.createCommit msg treeSha
            (match env.refLookup with | some s => [s] | none => []) = .error e := by
          rw [hT]
          exact hcc
        refine ⟨?_, ?_, ?_, ?_⟩ <;>
          simp [pushFilesRun, hmb, hct, hT, hcc, exceptIsError]
      | ok pr =>
        rcases pr with ⟨commitSha, commitUrl⟩
        have hno := push_stages_ok_no_failure env files msg T items treeSha
          commitSha commitUrl hmb hct hcc
        cases hup : env.updateRef (.patchRef branch commitSha false) with
        | false =>
          refine ⟨?_, ?_, ?_, ?_⟩
          · intro _
            simp [pushFilesRun, hmb, hct, hT, hcc, hup]
          · intro h
            exact absurd h (hmb ▸ hno)
          · simp [pushFilesRun, hmb, hct, hT, hcc, hup]
          · intro req hreq hf
            constructor <;> simp [pushFilesRun, hmb, hct, hT, hcc, hup,
              exceptIsError]
        | true =>
          refine ⟨?_, ?_, ?_, ?_⟩
          · intro h
            simp [pushFilesRun, hmb, hct, hT, hcc, hup, exceptIsError] at h
          · intro h
            exact absurd h (hmb ▸ hno)
          · intro _
            refine ⟨⟨commitSha, commitUrl, files.length⟩, ?_, ?_, ?_⟩ <;>
              simp [pushFilesRun, hmb, hct, hT, hcc, hup]
          · intro req hreq hf
            simp only [pushFilesRun, hmb, hct, hT, hcc, hup] at hreq
            simp at hreq
            subst hreq
            rw [hup] at hf
            cases hf

/-- A push environment whose tree-creation request fails while everything
before it succeeds. -/
def cexTreeFailEnv : PushEnv where
  refLookup := some "T"
  commitLookup := some "BT"
  createBlob := fun f => .ok ("b-" ++ f.path)
  createTree := fun _ _ => .error "boom"
  createCommit := fun _ _ _ => .ok ("c", "u")
  updateRef := fun _ => true

/-- Witness for `pushFiles_transactional`: against the tree-failing
environment the run throws, issues no ref request, and leaves the branch
ref at its prior tip. -/
theorem pushFiles_transactional_witness :
    exceptIsError (pushFilesRun cexTreeFailEnv (some "T")
        [⟨"a", "x", .utf8⟩] "m" "main").result = true
    ∧ (pushFilesRun cexTreeFailEnv (some "T")
        [⟨"a", "x", .utf8⟩] "m" "main").refReq = none
    ∧ (pushFilesRun cexTreeFailEnv (some "T")
        [⟨"a", "x", .utf8⟩] "m" "main").finalRef = some "T" := by
  have h := pushFiles_transactional cexTreeFailEnv [⟨"a", "x", .utf8⟩]
    "m" "main" "T" rfl
  have h2 := h.2.1 (Or.inr (Or.inl
    ⟨[⟨"a", "100644", "blob", "b-a"⟩], by decide, by decide⟩))
  exact ⟨h2.1, h2.2, h.1 h2.1⟩

/-- C3 counterexample: a successful publish to an existing branch whose
tree request carries no `base_tree`: in `cexPushEnv` the branch ref read
succeeds (`tip0`) but the base-commit read fails, which the source
swallows — the push succeeds, the commit has parent `tip0`, yet the tree
is created without a base, contradicting the claim that an existing
branch always gets the base tree supplied. -/
theorem pushFiles_missing_base_tree :
    (pushFilesRun cexPushEnv (some "tip0") [⟨"app.vue", "x", .utf8⟩]
        "msg" "main").result
      = .ok ⟨"commit1", "https://example.invalid/commit1", 1⟩
    ∧ (pushFilesRun cexPushEnv (some "tip0") [⟨"app.vue", "x", .utf8⟩]
        "msg" "main").treeReq
      = some ([⟨"app.vue", "100644", "blob", "blob-app.vue"⟩], none)
    ∧ (pushFilesRun cexPushEnv (some "tip0") [⟨"app.vue", "x", .utf8⟩]
        "msg" "main").commitReq
      = some ("msg", "tree1", ["tip0"])
    ∧ cexPushEnv.refLookup = some "tip0" := by
  refine ⟨by decide, by decide, by decide, rfl⟩

/-- C3 amended: on every successful publish, the commit request carries
the captured base tip as sole parent and the ref request is a
non-forced update when the branch ref read succeeded (no parent and a ref
creation when it did not), and the tree request's `base_tree` is exactly
the outcome of the base-commit read: the base commit's tree sha when that
read succeeded, and absent when it failed (or when the branch is new). -/
theorem pushFiles_request_shapes (env : PushEnv) (files : List TemplateFile)
    (msg branch : String) :
    (∀ T, env.refLookup = some T →
      ∀ r, (pushFilesRun env (some T) files msg branch).result = .ok r →
        (∃ t, (pushFilesRun env (some T) files msg branch).commitReq
            = some (msg, t, [T]))
        ∧ (∃ items, (pushFilesRun env (some T) files msg branch).treeReq
            = some (items, env.commitLookup))
        ∧ (pushFilesRun env (some T) files msg branch).refReq
            = some (.patchRef branch r.commitSha false))
    ∧ (env.refLookup = none →
      ∀ (init : Option String) r,
        (pushFilesRun env init files msg branch).result = .ok r →
        (∃ t, (pushFilesRun env init files msg branch).commitReq
            = some (msg, t, []))
        ∧ (∃ items, (pushFilesRun env init files msg branch).treeReq
            = some (items, none))
        ∧ (pushFilesRun env init files msg branch).refReq
            = some (.postRef branch r.commitSha)) := by
  constructor
  · intro T hT r hr
    cases hmb : mkBlobs env files with
    | error e => simp [pushFilesRun, hmb] at hr
    | ok items =>
      cases hct : env.createTree items (baseTreeOf env) with
      | error e => simp [pushFilesRun, hmb, hct] at hr
      | ok treeSha =>
        cases hcc : env.createCommit msg treeSha [T] with
        | error e =>
          simp [pushFilesRun, hmb, hct, hT, hcc] at hr
        | ok pr =>
          rcases pr with ⟨commitSha, commitUrl⟩
          cases hup : env.updateRef (.patchRef branch commitSha false) with
          | false =>
            simp [pushFilesRun, hmb, hct, hT, hcc, hup] at hr
          | true =>
            simp only [pushFilesRun, hmb, hct, hT, hcc, hup] at hr ⊢
            simp at hr
            subst hr
            refine ⟨⟨treeSha, ?_⟩, ⟨items, ?_⟩, ?_⟩ <;>
              simp [baseTreeOf, hT]
  · intro hT init r hr
    cases hmb : mkBlobs env files with
    | error e => simp [pushFilesRun, hmb] at hr
    | ok items =>
      cases hct : env.createTree items (baseTreeOf env) with
      | error e => simp [pushFilesRun, hmb, hct] at hr
      | ok treeSha =>
        cases hcc : env.createCommit msg treeSha [] with
        | error e =>
          simp [pushFilesRun, hmb, hct, hT, hcc] at hr
        | ok pr =>
          rcases pr with ⟨commitSha, commitUrl⟩
          cases hup : env.updateRef (.postRef branch commitSha) with
          | false =>
            simp [pushFilesRun, hmb, hct, hT, hcc, hup] at hr
          | true =>
            simp only [pushFilesRun, hmb, hct, hT, hcc, hup] at hr ⊢
            simp at hr
            subst hr
            refine ⟨⟨treeSha, ?_⟩, ⟨items, ?_⟩, ?_⟩ <;>
              simp [baseTreeOf, hT]

/-- Witness for `pushFiles_request_shapes` against `cexPushEnv`: the
successful run's ref request is the non-forced update to the new commit. -/
theorem pushFiles_request_shapes_witness :
    cexPushEnv.refLookup = some "tip0"
    ∧ (pushFilesRun cexPushEnv (some "tip0") [⟨"app.vue", "x", .utf8⟩]
        "msg" "main").result
      = .ok ⟨"commit1", "https://example.invalid/commit1", 1⟩
    ∧ (pushFilesRun cexPushEnv (some "tip0") [⟨"app.vue", "x", .utf8⟩]
        "msg" "main").refReq
      = some (.patchRef "main" "commit1" false) :=
  ⟨rfl, by decide,
   ((pushFiles_request_shapes cexPushEnv [⟨"app.vue", "x", .utf8⟩]
       "msg" "main").1 "tip0" rfl
     ⟨"commit1", "https://example.invalid/commit1", 1⟩ (by decide)).2.2⟩

/-- Helper: a global replacement whose pattern matches nowhere in the
input leaves the input unchanged. -/
theorem scanReplace_no_match (matchAt : List Char → Option (Nat × List Char))
    (l : List Char) (h : hasMatchIn matchAt l = false) :
    ∀ fuel, scanReplace matchAt fuel l = l := by
  induction l with
  | nil =>
    intro fuel
    cases fuel <;> rfl
  | cons c rest ih =>
    simp only [hasMatchIn, List.tails_cons, List.any_cons, Bool.or_eq_false_iff]
    at h
    intro fuel
    cases fuel with
    | zero => rfl
    | succ fuel =>
      have hnone : matchAt (c :: rest) = none :=
        Option.not_isSome_iff_eq_none.mp (by simp [h.1])
      simp only [scanReplace, hnone]
      rw [ih h.2 fuel]

/-- Helper: the per-token replacement loop of `updateUnoColors` leaves the
colors block unchanged when no requested token matches either pattern
anywhere in it. -/
theorem applyColorTokens_no_match (block : List Char)
    (colors : List (String × String))
    (h : ∀ tv ∈ colors,
      hasMatchIn (simpleMatchAt tv.1.data tv.2.data) block = false
      ∧ hasMatchIn (nestedMatchAt tv.1.data tv.2.data) block = false) :
    applyColorTokens block colors = block := by
  induction colors with
  | nil => rfl
  | cons tv rest ih =>
    have htv := h tv (List.mem_cons_self tv rest)
    have hrest := fun tv' htv' => h tv' (List.mem_cons_of_mem tv htv')
    have hstep :
        (if hasMatchIn (simpleMatchAt tv.1.data tv.2.data) block then
          scanReplace (simpleMatchAt tv.1.data tv.2.data) block.length block
         else
          scanReplace (nestedMatchAt tv.1.data tv.2.data) block.length block)
          = block := by
      rw [htv.1]
      simp only [Bool.false_eq_true, if_false]
      exact scanReplace_no_match _ block htv.2 block.length
    unfold applyColorTokens at ih ⊢
    rw [List.foldl_cons]
    show List.foldl _
      (if hasMatchIn (simpleMatchAt tv.1.data tv.2.data) block then
        scanReplace (simpleMatchAt tv.1.data tv.2.data) block.length block
       else
        scanReplace (nestedMatchAt tv.1.data tv.2.data) block.length block)
      rest = block
    rw [hstep]
    exact ih hrest

/-- C8 amended: for a file set holding a theme file and a non-empty colors
map none of whose tokens matches a flat or nested-`DEFAULT` assignment in
the captured colors block, `updateUnoColors` reduces to the final
re-serialization of the unchanged block (`colors: \x7b...\x7d,`); when
that re-serialization reproduces the file byte-for-byte, `applyBranding`
(with no logo) reports zero modified paths, the fixed no-colors-updated
warning, and unchanged files — but when it does not, the normalization
itself changes the file, which is then reported as modified with no
warning.  With an empty colors map and no logo, `applyBranding` is always
a no-op with zero modified paths and zero warnings. -/
theorem applyBranding_unmatched_tokens (content : String)
    (colors : List (String × String)) (pre block rest : List Char)
    (hf : findColors content.data = some (pre, block, rest))
    (hnm : ∀ tv ∈ colors,
      hasMatchIn (simpleMatchAt tv.1.data tv.2.data) block = false
      ∧ hasMatchIn (nestedMatchAt tv.1.data tv.2.data) block = false) :
    updateUnoColors content colors = normalizeColorsBlock content
    ∧ (∀ (files : List TemplateFile) (i : Nat) (unoFile : TemplateFile),
        findWithIdx isUnoConfigPath files 0 = some (i, unoFile) →
        unoFile.content = content →
        colors ≠ [] →
        (normalizeColorsBlock content = content →
          applyBranding files ⟨colors, none⟩
            = (files, ⟨[],
                ["uno.config.ts found but no colors were updated - check color token names"]⟩))
        ∧ (normalizeColorsBlock content ≠ content →
          applyBranding files ⟨colors, none⟩
            = (files.set i
                ⟨unoFile.path, normalizeColorsBlock content, unoFile.encoding⟩,
               ⟨[unoFile.path], []⟩)))
    ∧ (∀ files : List TemplateFile,
        applyBranding files ⟨[], none⟩ = (files, ⟨[], []⟩)) := by
  have hmain : updateUnoColors content colors = normalizeColorsBlock content := by
    unfold updateUnoColors normalizeColorsBlock
    rw [hf]
    show String.mk (pre ++ "colors: \x7b".data ++ applyColorTokens block colors
        ++ "\x7d,".data ++ rest)
      = String.mk (pre ++ "colors: \x7b".data ++ block ++ "\x7d,".data ++ rest)
    rw [applyColorTokens_no_match block colors hnm]
  refine ⟨hmain, ?_, ?_⟩
  · intro files i unoFile hidx hcontent hcolors
    have hlen : 0 < colors.length := List.length_pos.mpr hcolors
    have hupd : updateUnoColors unoFile.content colors
        = normalizeColorsBlock content := by
      rw [hcontent, hmain]
    constructor
    · intro hnorm
      have heq : normalizeColorsBlock content = unoFile.content := by
        rw [hcontent]
        exact hnorm
      simp [applyBranding, hlen, hidx, hupd, heq]
    · intro hnorm
      have hne : ¬ (normalizeColorsBlock content = unoFile.content) := by
        rw [hcontent]
        exact hnorm
      simp [applyBranding, hlen, hidx, hupd, hne]
  · intro files
    simp [applyBranding]

/-- C8 counterexample: the claim fails on a theme file whose colors block
is not already in the normalized `colors: \x7b...\x7d,` form: with the
single token `accent` — which matches nothing in the block (shown by the
two `hasMatchIn` conjuncts) — `applyBranding` with no logo reports the
theme file as modified with NO warning, and its content changes (the
trailing brace-and-newline is rewritten to a brace-and-comma), instead of the
claimed warning, zero modified paths and byte-for-byte unchanged file. -/
theorem applyBranding_normalization_modifies :
    findColors cexUnoContent.data
      = some ([], " primary: \"#fff\" ".data, "foo: 1".data)
    ∧ hasMatchIn (simpleMatchAt "accent".data "#000".data)
        " primary: \"#fff\" ".data = false
    ∧ hasMatchIn (nestedMatchAt "accent".data "#000".data)
        " primary: \"#fff\" ".data = false
    ∧ applyBranding [⟨"uno.config.ts", cexUnoContent, .utf8⟩]
        ⟨[("accent", "#000")], none⟩
      = ([⟨"uno.config.ts", fixUnoContent, .utf8⟩], ⟨["uno.config.ts"], []⟩)
    ∧ fixUnoContent ≠ cexUnoContent := by
  refine ⟨by decide, by decide, by decide, by decide, by decide⟩

/-- Witness for `applyBranding_unmatched_tokens` at the normalized theme
file `fixUnoContent` (a fixed point of the re-serialization) and the
unmatched token `accent`: warning raised, zero modified paths, files
unchanged. -/
theorem applyBranding_unmatched_tokens_witness :
    findColors fixUnoContent.data
      = some ([], " primary: \"#fff\" ".data, "foo: 1".data)
    ∧ applyBranding [⟨"uno.config.ts", fixUnoContent, .utf8⟩]
        ⟨[("accent", "#000")], none⟩
      = ([⟨"uno.config.ts", fixUnoContent, .utf8⟩],
         ⟨[],
          ["uno.config.ts found but no colors were updated - check color token names"]⟩)
    ∧ applyBranding [⟨"uno.config.ts", fixUnoContent, .utf8⟩] ⟨[], none⟩
      = ([⟨"uno.config.ts", fixUnoContent, .utf8⟩], ⟨[], []⟩) := by
  have h := applyBranding_unmatched_tokens fixUnoContent [("accent", "#000")]
    [] (" primary: \"#fff\" ".data) ("foo: 1".data) (by decide) (by decide)
  refine ⟨by decide, ?_, h.2.2 _⟩
  exact ((h.2.1 [⟨"uno.config.ts", fixUnoContent, .utf8⟩] 0
    ⟨"uno.config.ts", fixUnoContent, .utf8⟩ (by decide) rfl (by decide)).1
    (by decide))
